import Mathlib

/-!
Verification development for the macro-dashboard data pipeline in `src/app.py`.

A pandas `Series` with a daily `DatetimeIndex` is embedded as a list of
(day, value) pairs, days as naturals, values as `Option ℚ` where `none`
stands for a float NaN.  Pandas elementwise arithmetic between two series
aligns them on the sorted union of their indices and produces NaN wherever
either operand is missing or NaN; this is embedded by `pdBinop`.
Float infinities are not modelled: division of a nonzero value by zero
(which pandas maps to ±inf) is left at the `ℚ` convention, and no theorem
below depends on that case.
-/

namespace AppModel

/-- Embedding of a pandas Series: (day, value) rows, `none` = NaN. -/
abbrev TSeries := List (ℕ × Option ℚ)

/-- The index of a series (`s.index`). -/
def idx (s : TSeries) : List ℕ := s.map Prod.fst

/-- Row lookup by timestamp: `some v` when the row exists (v may be NaN). -/
def rowAt : TSeries → ℕ → Option (Option ℚ)
  | [], _ => none
  | p :: s, t => if p.1 = t then some p.2 else rowAt s t

/-- Value lookup by timestamp: `some x` only for a present, non-NaN row. -/
def vlookup (s : TSeries) (t : ℕ) : Option ℚ := (rowAt s t).join

/-- `Series.dropna()`: keep only the non-NaN rows. -/
def dropna (s : TSeries) : TSeries := s.filter (fun p => p.2.isSome)

/-- Sorted merge of two index lists (fuel-structured so it reduces). -/
def mergeIdxAux : ℕ → List ℕ → List ℕ → List ℕ
  | 0, xs, ys => xs ++ ys
  | _ + 1, [], ys => ys
  | _ + 1, x :: xs, [] => x :: xs
  | fuel + 1, x :: xs, y :: ys =>
    if x < y then x :: mergeIdxAux fuel xs (y :: ys)
    else if y < x then y :: mergeIdxAux fuel (x :: xs) ys
    else x :: mergeIdxAux fuel xs ys

/-- Union of two indices, as produced by pandas alignment of two series. -/
def unionIdx (a b : List ℕ) : List ℕ := mergeIdxAux (a.length + b.length) a b

/-- `a.index.intersection(b.index)` (order of the first argument kept). -/
def interIdx (a b : List ℕ) : List ℕ := a.filter (fun t => decide (t ∈ b))

/-- Float subtraction on possibly-NaN values: NaN propagates. -/
def osub : Option ℚ → Option ℚ → Option ℚ
  | some x, some y => some (x - y)
  | _, _ => none

/-- Float division on possibly-NaN values: NaN propagates, 0/0 is NaN.
Division of a nonzero value by zero is ±inf in pandas; here it falls back
to the `ℚ` convention (no claim exercises that case). -/
def odiv : Option ℚ → Option ℚ → Option ℚ
  | some x, some y => if x = 0 ∧ y = 0 then none else some (x / y)
  | _, _ => none

/-- Pandas elementwise arithmetic between two series: align on the union
of the indices, apply `f` (which yields NaN when an operand is absent). -/
def pdBinop (f : Option ℚ → Option ℚ → Option ℚ) (a b : TSeries) : TSeries :=
  (unionIdx (idx a) (idx b)).map (fun t => (t, f (vlookup a t) (vlookup b t)))

/-- Pandas `a - b`. -/
def pdSub (a b : TSeries) : TSeries := pdBinop osub a b

/-- Pandas `a / b`. -/
def pdDiv (a b : TSeries) : TSeries := pdBinop odiv a b

/-- `s.loc[c]`: the rows of `s` selected by the index list `c`, in the
order of `c` (rows absent from `s` contribute nothing). -/
def loc (s : TSeries) (c : List ℕ) : TSeries :=
  c.filterMap (fun t => (rowAt s t).map (fun v => (t, v)))

/-- Restriction of two series to their common timestamps, the pattern of
`app.py` lines 86-87: `c = a.index.intersection(b.index); a.loc[c], b.loc[c]`. -/
def align (a b : TSeries) : TSeries × TSeries :=
  (loc a (interIdx (idx a) (idx b)), loc b (interIdx (idx a) (idx b)))

/-- `app.py` line 87: `data_store['Gold'].loc[c] / data_store['Oil'].loc[c]`
with `c` the intersection of the two indices. -/
def goldOil (a b : TSeries) : TSeries := pdDiv (align a b).1 (align a b).2

/-- `app.py` line 91: `data_store['Fed_BS'] - data_store['TGA'] -
data_store['ON_RRP']`, two chained pandas subtractions. -/
def netLiquidity (a b c : TSeries) : TSeries := pdSub (pdSub a b) c

/-! ### `resample('D').interpolate(method='time', limit=5).dropna()`
(`app.py` line 66).

`resample('D')` lays a daily grid from the first to the last original
timestamp; `interpolate(method='time', limit=5)` fills NaN grid points by
time-weighted linear interpolation between the surrounding observations,
filling at most `limit` consecutive NaNs in the (default) forward
direction — so a longer gap is filled on its first `limit` days only, and
trailing NaNs are padded with the last observed value, again at most
`limit` of them; leading NaNs are not filled.  `dropna()` then removes
the still-undefined grid points. -/

/-- The non-NaN observations of a series, as (day, value) pairs. -/
def validPts (s : TSeries) : List (ℕ × ℚ) :=
  s.filterMap (fun p => p.2.map (fun v => (p.1, v)))

/-- The last observation strictly before day `t`. -/
def prevValid (s : TSeries) (t : ℕ) : Option (ℕ × ℚ) :=
  ((validPts s).filter (fun p => decide (p.1 < t))).getLast?

/-- The first observation strictly after day `t`. -/
def nextValid (s : TSeries) (t : ℕ) : Option (ℕ × ℚ) :=
  ((validPts s).filter (fun p => decide (t < p.1))).head?

/-- The observed (non-NaN) value at day `t`, if any. -/
def atValid (s : TSeries) (t : ℕ) : Option ℚ :=
  ((validPts s).find? (fun p => p.1 == t)).map Prod.snd

/-- Time-weighted linear interpolation at day `t` between observations
(p, vp) and (q, vq). -/
def timeInterp (p : ℕ) (vp : ℚ) (q : ℕ) (vq : ℚ) (t : ℕ) : ℚ :=
  vp + (vq - vp) * (((t : ℚ) - (p : ℚ)) / ((q : ℚ) - (p : ℚ)))

/-- The value of the interpolated daily grid at day `t`. -/
def interpAt (s : TSeries) (lim : ℕ) (t : ℕ) : Option ℚ :=
  match atValid s t with
  | some v => some v
  | none =>
    match prevValid s t, nextValid s t with
    | some pv, some qv =>
      if t - pv.1 ≤ lim then some (timeInterp pv.1 pv.2 qv.1 qv.2 t) else none
    | some pv, none => if t - pv.1 ≤ lim then some pv.2 else none
    | none, _ => none

/-- First day of the resampling grid (minimum of the original index). -/
def gridLo (s : TSeries) : ℕ :=
  match idx s with
  | [] => 0
  | t :: ts => ts.foldl min t

/-- Last day of the resampling grid (maximum of the original index). -/
def gridHi (s : TSeries) : ℕ :=
  match idx s with
  | [] => 0
  | t :: ts => ts.foldl max t

/-- The daily grid spanned by the original index. -/
def gridIdx (s : TSeries) : List ℕ :=
  if s.isEmpty then []
  else (List.range (gridHi s - gridLo s + 1)).map (fun i => gridLo s + i)

/-- `series.resample('D').interpolate(method='time', limit=lim).dropna()`. -/
def resample_daily (s : TSeries) (lim : ℕ) : TSeries :=
  dropna ((gridIdx s).map (fun t => (t, interpAt s lim t)))

/-! ### The acquisition orchestrator `get_macro_data` (`app.py` lines 50-94).

The FRED codes, Yahoo tickers and result-mapping keys are the string
literals of `app.py`'s `fred_codes` and `tickers` dicts, embedded as
finite inductive types (`FredCode.T10Y2Y` is the code `"T10Y2Y"`,
`Tick.GC_F` the symbol `"GC=F"`, `SKey.Fed_BS` the key `'Fed_BS'`, and
so on).  A fetch environment gives, for each code/ticker, either the
fetched raw series or `none` for a fetch that raised (network, HTTP or
parse error), which the code swallows with `except: pass`.  For Yahoo the
raw series is the `Close` column of the downloaded frame, NaNs included;
an empty download frame is the `df.empty` guard. -/

/-- The FRED series codes of `fred_codes` (`app.py` lines 57-61). -/
inductive FredCode
  | WALCL | WTREGEN | RRPONTSYD | WRESBAL | WSHOMCB | WSHMBS | SOFR | DFF | T10Y2Y
deriving DecidableEq, Fintype

/-- The Yahoo ticker symbols of `tickers` (`app.py` lines 71-75):
GC=F, CL=F, HG=F, DX-Y.NYB, CNY=X, TNX (for ^TNX), HK2823 (for 2823.HK). -/
inductive Tick
  | GC_F | CL_F | HG_F | DX_Y_NYB | CNY_X | TNX | HK2823
deriving DecidableEq, Fintype

/-- The keys of the result mapping `data_store`. -/
inductive SKey
  | Fed_BS | TGA | ON_RRP | Reserves | Fed_Treasury | Fed_MBS | SOFR | Fed_Funds
  | Yield_Curve
  | Gold | Oil | Copper | DXY | CNH | US10Y | A50_HK
  | Gold_Oil | Net_Liquidity
deriving DecidableEq, Fintype

/-- One run's fetch outcomes: `none` models a raised fetch exception. -/
structure FetchEnv where
  fred : FredCode → Option TSeries
  yahoo : Tick → Option TSeries

/-- The `fred_codes` dict: code ↦ result-mapping key (`app.py` 57-61). -/
def fredCodes : List (FredCode × SKey) :=
  [(.WALCL, .Fed_BS), (.WTREGEN, .TGA), (.RRPONTSYD, .ON_RRP),
   (.WRESBAL, .Reserves), (.WSHOMCB, .Fed_Treasury), (.WSHMBS, .Fed_MBS),
   (.SOFR, .SOFR), (.DFF, .Fed_Funds), (.T10Y2Y, .Yield_Curve)]

/-- The `tickers` dict: result-mapping key ↦ ticker (`app.py` 71-75). -/
def tickers : List (SKey × Tick) :=
  [(.Gold, .GC_F), (.Oil, .CL_F), (.Copper, .HG_F), (.DXY, .DX_Y_NYB),
   (.CNH, .CNY_X), (.US10Y, .TNX), (.A50_HK, .HK2823)]

/-- The result mapping `data_store`: insertion-ordered, keys unique. -/
abbrev Store := List (SKey × TSeries)

/-- The key set of the mapping. -/
def keys (st : Store) : List SKey := st.map Prod.fst

/-- Dictionary lookup in the mapping. -/
def getRow : Store → SKey → Option TSeries
  | [], _ => none
  | p :: st, k => if p.1 = k then some p.2 else getRow st k

/-- `data_store[k]` where the caller has checked `k in data_store`. -/
def getS (st : Store) (k : SKey) : TSeries := (getRow st k).getD []

/-- Phase 1 (`app.py` 62-67): for each FRED code, on fetch success store
`df.iloc[:, 0].resample('D').interpolate(method='time', limit=5).dropna()`
under the code's key; on a raised fetch, `except: pass`. -/
def fredEntries (env : FetchEnv) (l : List (FredCode × SKey)) : Store :=
  l.filterMap (fun p => (env.fred p.1).map (fun raw => (p.2, resample_daily raw 5)))

/-- Phase 2 (`app.py` 76-82): for each ticker, on fetch success and a
non-empty frame store `series.dropna()`; else nothing. -/
def yahooEntries (env : FetchEnv) (l : List (SKey × Tick)) : Store :=
  l.filterMap (fun p =>
    (env.yahoo p.2).bind (fun df => if df.isEmpty then none else some (p.1, dropna df)))

/-- The mapping after both fetch phases. -/
def phase12 (env : FetchEnv) : Store :=
  fredEntries env fredCodes ++ yahooEntries env tickers

/-- `app.py` 85-87: `if 'Gold' in data_store and 'Oil' in data_store`,
store the ratio under `'Gold_Oil'`. -/
def withGoldOil (st : Store) : Store :=
  if SKey.Gold ∈ keys st ∧ SKey.Oil ∈ keys st then
    st ++ [(SKey.Gold_Oil, goldOil (getS st .Gold) (getS st .Oil))]
  else st

/-- `app.py` 90-91: `if all(k in data_store for k in ['Fed_BS', 'TGA',
'ON_RRP'])`, store the chained subtraction under `'Net_Liquidity'`. -/
def withNetLiq (st : Store) : Store :=
  if SKey.Fed_BS ∈ keys st ∧ SKey.TGA ∈ keys st ∧ SKey.ON_RRP ∈ keys st then
    st ++ [(SKey.Net_Liquidity,
            netLiquidity (getS st .Fed_BS) (getS st .TGA) (getS st .ON_RRP))]
  else st

/-- `get_macro_data` (`app.py` 51-94) as a function of the fetch outcomes. -/
def get_macro_data (env : FetchEnv) : Store := withNetLiq (withGoldOil (phase12 env))

/-- Fetch success for a FRED code: the HTTP get and CSV parse returned. -/
def fredOk (env : FetchEnv) (c : FredCode) : Prop := ∃ raw, env.fred c = some raw

/-- Fetch success for a ticker: the download returned a non-empty frame. -/
def yahooOk (env : FetchEnv) (sym : Tick) : Prop :=
  ∃ df, env.yahoo sym = some df ∧ df ≠ []

/-! ### Stale-tail detector (spec §4.3). -/

/-- The final `k` values of the series (`tail(k)` of the value column). -/
def lastVals (s : List (ℕ × ℚ)) (k : ℕ) : List ℚ :=
  (s.map Prod.snd).drop (s.length - k)

/-- Whether the series has at least `k` points and its final `k` values
are all identical (sample standard deviation exactly zero). -/
def flatTail (k : ℕ) (s : List (ℕ × ℚ)) : Bool :=
  decide (k ≤ s.length) &&
    (match lastVals s k with
     | [] => false
     | v :: rest => rest.all (fun w => w == v))

/-- The last index of the series whose value differs from `v`. -/
def lastDiffIdx (s : List (ℕ × ℚ)) (v : ℚ) : Option ℕ :=
  ((List.range s.length).filter
    (fun i => decide ((s.map Prod.snd).get? i ≠ some v))).getLast?

/-- Modelled from the spec: the Stale-Tail Detector of spec §4.3 has no
counterpart in `src/app.py` (the only source file); this follows the
spec's words.  Inspect the final `k` points; if all identical, find the
last index whose value differs from the flat value and truncate the
series to end at that timestamp; otherwise, or when no differing point
exists, leave the series untouched. -/
def staleTruncate (k : ℕ) (s : List (ℕ × ℚ)) : List (ℕ × ℚ) :=
  match lastVals s k with
  | [] => s
  | v :: _ =>
    if flatTail k s then
      match lastDiffIdx s v with
      | some i => s.take (i + 1)
      | none => s
    else s

/-! ### The renderer entry `plot_full_card` (`app.py` lines 101-106). -/

/-- `series.iloc[-k]` for positive `k`: raises unless `k ≤ len`. -/
def ilocNeg (l : TSeries) (k : ℕ) : Option (ℕ × Option ℚ) :=
  if k ≤ l.length then l.get? (l.length - k) else none

/-- Outcome of the guard-and-read part of `plot_full_card`. -/
inductive PlotOutcome
  | skipped
  | rendered (curr prev : Option ℚ)
  | indexError
deriving DecidableEq

/-- `plot_full_card` (`app.py` 101-106): return on a `None` or empty
series; otherwise take the 90-point tail and read `iloc[-1]` and
`iloc[-2]`, the latter raising `IndexError` when the tail has one row. -/
def plot_full_card (s : Option TSeries) : PlotOutcome :=
  match s with
  | none => .skipped
  | some l =>
    if l.isEmpty then .skipped
    else
      match ilocNeg (l.drop (l.length - 90)) 1, ilocNeg (l.drop (l.length - 90)) 2 with
      | some c, some p => .rendered c.2 p.2
      | _, _ => .indexError

/-! ### Concrete environments used to instantiate the run theorems. -/

/-- A run in which every fetch succeeds with a one-point series. -/
def envAll : FetchEnv := ⟨fun _ => some [(0, some 1)], fun _ => some [(0, some 1)]⟩

/-- The same run except that the WALCL (Fed balance-sheet) fetch raises. -/
def envNoWalcl : FetchEnv :=
  ⟨fun c => if c = .WALCL then none else some [(0, some 1)], fun _ => some [(0, some 1)]⟩

/-- The same run except that the GC=F (gold) download raises. -/
def envNoGold : FetchEnv :=
  ⟨fun _ => some [(0, some 1)], fun s => if s = .GC_F then none else some [(0, some 1)]⟩

/-! ### Basic lookup lemmas. -/

theorem rowAt_eq_none_of_not_mem : ∀ (s : TSeries) (t : ℕ), t ∉ idx s → rowAt s t = none := by
  intro s t
  induction s with
  | nil => intro _; rfl
  | cons p s ih =>
    intro h
    simp only [idx, List.map_cons, List.mem_cons, not_or] at h
    simp only [rowAt]
    rw [if_neg (fun e => h.1 e.symm)]
    exact ih (by simpa [idx] using h.2)

theorem mem_idx_of_rowAt_eq_some : ∀ (s : TSeries) (t : ℕ) (v : Option ℚ),
    rowAt s t = some v → t ∈ idx s := by
  intro s t v
  induction s with
  | nil => intro h; cases h
  | cons p s ih =>
    intro h
    simp only [rowAt] at h
    by_cases he : p.1 = t
    · simp [idx, he.symm]
    · rw [if_neg he] at h
      simp only [idx, List.map_cons, List.mem_cons]
      exact Or.inr (ih h)

theorem vlookup_eq_none_of_not_mem (s : TSeries) (t : ℕ) (h : t ∉ idx s) :
    vlookup s t = none := by
  simp [vlookup, rowAt_eq_none_of_not_mem s t h]

theorem mem_idx_of_vlookup_eq_some (s : TSeries) (t : ℕ) (x : ℚ)
    (h : vlookup s t = some x) : t ∈ idx s := by
  unfold vlookup at h
  rcases hr : rowAt s t with _ | v
  · rw [hr] at h; cases h
  · exact mem_idx_of_rowAt_eq_some s t v hr

theorem idx_map_graph (l : List ℕ) (g : ℕ → Option ℚ) :
    idx (l.map (fun u => (u, g u))) = l := by
  simp [idx, List.map_map, Function.comp_def]

theorem rowAt_map_graph (l : List ℕ) (g : ℕ → Option ℚ) (t : ℕ) (h : t ∈ l) :
    rowAt (l.map (fun u => (u, g u))) t = some (g t) := by
  induction l with
  | nil => cases h
  | cons u l ih =>
    simp only [List.map_cons, rowAt]
    by_cases he : u = t
    · subst he; simp
    · rw [if_neg he]
      have h' : t ∈ l := by
        rcases List.mem_cons.mp h with h1 | h1
        · exact absurd h1.symm he
        · exact h1
      exact ih h'

theorem vlookup_map_graph (l : List ℕ) (g : ℕ → Option ℚ) (t : ℕ) (h : t ∈ l) :
    vlookup (l.map (fun u => (u, g u))) t = g t := by
  simp [vlookup, rowAt_map_graph l g t h]

theorem idx_dropna_subset (s : TSeries) : idx (dropna s) ⊆ idx s := by
  intro t ht
  simp only [idx, dropna, List.mem_map] at ht ⊢
  obtain ⟨p, hp, he⟩ := ht
  exact ⟨p, (List.mem_filter.mp hp).1, he⟩

theorem dropna_cons (p : ℕ × Option ℚ) (s : TSeries) :
    dropna (p :: s) = if p.2.isSome then p :: dropna s else dropna s := by
  simp only [dropna, List.filter_cons]

theorem rowAt_cons (p : ℕ × Option ℚ) (s : TSeries) (t : ℕ) :
    rowAt (p :: s) t = if p.1 = t then some p.2 else rowAt s t := rfl

theorem vlookup_dropna_graph : ∀ (l : List ℕ) (g : ℕ → Option ℚ) (t : ℕ), t ∈ l →
    vlookup (dropna (l.map (fun u => (u, g u)))) t = g t := by
  intro l g t
  induction l with
  | nil => intro h; cases h
  | cons u l ih =>
    intro h
    rw [List.map_cons, dropna_cons]
    rcases hg : g u with _ | v
    · simp only [hg, Option.isSome_none, Bool.false_eq_true, if_false]
      by_cases he : u = t
      · subst he
        by_cases hm : u ∈ l
        · rw [ih hm, hg]
        · rw [hg]
          refine vlookup_eq_none_of_not_mem _ u (fun hc => hm ?_)
          have := idx_dropna_subset (l.map (fun x => (x, g x))) hc
          rwa [idx_map_graph] at this
      · have h' : t ∈ l := by
          rcases List.mem_cons.mp h with h1 | h1
          · exact absurd h1.symm he
          · exact h1
        exact ih h'
    · simp only [hg, Option.isSome_some, if_true]
      by_cases he : u = t
      · subst he
        simp [vlookup, rowAt_cons, hg]
      · simp only [vlookup, rowAt_cons, if_neg he]
        have h' : t ∈ l := by
          rcases List.mem_cons.mp h with h1 | h1
          · exact absurd h1.symm he
          · exact h1
        exact ih h'

/-! ### Grid bounds. -/

theorem foldl_min_le_init (l : List ℕ) (a : ℕ) : l.foldl min a ≤ a := by
  induction l generalizing a with
  | nil => simp
  | cons x l ih =>
    simp only [List.foldl_cons]
    exact le_trans (ih (min a x)) (min_le_left a x)

theorem foldl_min_le_mem : ∀ (l : List ℕ) (a u : ℕ), u ∈ l → l.foldl min a ≤ u := by
  intro l
  induction l with
  | nil => intro a u h; cases h
  | cons x l ih =>
    intro a u h
    simp only [List.foldl_cons]
    rcases List.mem_cons.mp h with rfl | h'
    · exact le_trans (foldl_min_le_init l (min a u)) (min_le_right a u)
    · exact ih (min a x) u h'

theorem le_foldl_max_init (l : List ℕ) (a : ℕ) : a ≤ l.foldl max a := by
  induction l generalizing a with
  | nil => simp
  | cons x l ih =>
    simp only [List.foldl_cons]
    exact le_trans (le_max_left a x) (ih (max a x))

theorem le_foldl_max_mem : ∀ (l : List ℕ) (a u : ℕ), u ∈ l → u ≤ l.foldl max a := by
  intro l
  induction l with
  | nil => intro a u h; cases h
  | cons x l ih =>
    intro a u h
    simp only [List.foldl_cons]
    rcases List.mem_cons.mp h with rfl | h'
    · exact le_trans (le_max_right a u) (le_foldl_max_init l (max a u))
    · exact ih (max a x) u h'

theorem gridLo_le_of_mem (s : TSeries) (t : ℕ) (h : t ∈ idx s) : gridLo s ≤ t := by
  rcases hidx : idx s with _ | ⟨u, ts⟩
  · rw [hidx] at h; cases h
  · rw [hidx] at h
    simp only [gridLo, hidx]
    rcases List.mem_cons.mp h with rfl | h'
    · exact foldl_min_le_init ts t
    · exact foldl_min_le_mem ts u t h'

theorem le_gridHi_of_mem (s : TSeries) (t : ℕ) (h : t ∈ idx s) : t ≤ gridHi s := by
  rcases hidx : idx s with _ | ⟨u, ts⟩
  · rw [hidx] at h; cases h
  · rw [hidx] at h
    simp only [gridHi, hidx]
    rcases List.mem_cons.mp h with rfl | h'
    · exact le_foldl_max_init ts t
    · exact le_foldl_max_mem ts u t h'

theorem ne_nil_of_mem_idx (s : TSeries) (t : ℕ) (h : t ∈ idx s) : s ≠ [] := by
  rintro rfl; cases h

theorem mem_gridIdx_of_bounds (s : TSeries) (t : ℕ) (hne : s ≠ [])
    (h1 : gridLo s ≤ t) (h2 : t ≤ gridHi s) : t ∈ gridIdx s := by
  have he : s.isEmpty = false := by
    rcases s with _ | _
    · exact absurd rfl hne
    · rfl
  simp only [gridIdx, he, Bool.false_eq_true, if_false, List.mem_map, List.mem_range]
  exact ⟨t - gridLo s, by omega, by omega⟩

theorem mem_idx_of_mem_validPts (s : TSeries) (u : ℕ) (x : ℚ)
    (h : (u, x) ∈ validPts s) : (u, some x) ∈ s := by
  simp only [validPts, List.mem_filterMap] at h
  obtain ⟨⟨q1, q2⟩, hq, he⟩ := h
  rcases q2 with _ | v
  · cases he
  · simp only [Option.map_some', Option.some.injEq] at he
    injection he with h1 h2
    subst h1
    subst h2
    exact hq

theorem mem_validPts_of_atValid (s : TSeries) (t : ℕ) (v : ℚ) (h : atValid s t = some v) :
    (t, v) ∈ validPts s := by
  simp only [atValid, Option.map_eq_some'] at h
  obtain ⟨p, hp, he⟩ := h
  have hm := List.mem_of_find?_eq_some hp
  have hb := List.find?_some hp
  have h1 : p.1 = t := by simpa using hb
  have : p = (t, v) := by
    rcases p with ⟨p1, p2⟩
    simp only at h1 he
    rw [h1, he]
  rwa [this] at hm

theorem prevValid_facts (s : TSeries) (t : ℕ) (pv : ℕ × ℚ)
    (h : prevValid s t = some pv) : pv ∈ validPts s ∧ pv.1 < t := by
  have hm : pv ∈ (validPts s).filter (fun p => decide (p.1 < t)) := by
    have hne : (validPts s).filter (fun p => decide (p.1 < t)) ≠ [] := by
      intro hc; rw [prevValid, hc] at h; cases h
    have := List.getLast?_eq_getLast _ hne
    rw [prevValid, this] at h
    exact (Option.some.inj h) ▸ List.getLast_mem hne
  have := List.mem_filter.mp hm
  exact ⟨this.1, by simpa using this.2⟩

theorem nextValid_facts (s : TSeries) (t : ℕ) (qv : ℕ × ℚ)
    (h : nextValid s t = some qv) : qv ∈ validPts s ∧ t < qv.1 := by
  have hm : qv ∈ (validPts s).filter (fun p => decide (t < p.1)) := by
    exact List.mem_of_mem_head? (by simp [nextValid] at h; simp [h])
  have := List.mem_filter.mp hm
  exact ⟨this.1, by simpa using this.2⟩

/-! ### The interpolated grid value. -/

theorem interpAt_of_atValid (s : TSeries) (lim t : ℕ) (v : ℚ)
    (h : atValid s t = some v) : interpAt s lim t = some v := by
  simp [interpAt, h]

theorem interpAt_of_gap (s : TSeries) (lim t : ℕ) (pv qv : ℕ × ℚ)
    (h0 : atValid s t = none) (h1 : prevValid s t = some pv)
    (h2 : nextValid s t = some qv) :
    interpAt s lim t =
      if t - pv.1 ≤ lim then some (timeInterp pv.1 pv.2 qv.1 qv.2 t) else none := by
  simp [interpAt, h0, h1, h2]

theorem vlookup_resample_daily (s : TSeries) (lim t : ℕ) (h : t ∈ gridIdx s) :
    vlookup (resample_daily s lim) t = interpAt s lim t :=
  vlookup_dropna_graph (gridIdx s) (interpAt s lim) t h

/-- Preservation: every observed point survives the resampling pipeline. -/
theorem resample_daily_preserves (s : TSeries) (lim t : ℕ) (v : ℚ)
    (h : atValid s t = some v) : (t, some v) ∈ resample_daily s lim := by
  have hvp := mem_validPts_of_atValid s t v h
  have hmem : t ∈ idx s := by
    have := mem_idx_of_mem_validPts s t v hvp
    simp only [idx, List.mem_map]
    exact ⟨(t, some v), this, rfl⟩
  have hg : t ∈ gridIdx s :=
    mem_gridIdx_of_bounds s t (ne_nil_of_mem_idx s t hmem)
      (gridLo_le_of_mem s t hmem) (le_gridHi_of_mem s t hmem)
  simp only [resample_daily, dropna, List.mem_filter, List.mem_map]
  refine ⟨⟨t, hg, ?_⟩, by simp⟩
  rw [interpAt_of_atValid s lim t v h]

/-- C2 (amended): `resample_daily` preserves every observed value at its
original timestamp (for every input series, gaps long or short); on a day
`t` with no observation, lying between the surrounding observations `pv`
and `qv`, the output carries the time-weighted interpolated value exactly
when `t` is at most `gap_limit` days after `pv` — so a gap longer than
`gap_limit` consecutive missing days is filled on its first `gap_limit`
days and dropped on the rest, rather than left entirely unfilled. -/
theorem resample_daily_gap_semantics (s : TSeries) (lim : ℕ) :
    (∀ t v, atValid s t = some v → (t, some v) ∈ resample_daily s lim)
    ∧ (∀ t pv qv, atValid s t = none → prevValid s t = some pv →
        nextValid s t = some qv →
        vlookup (resample_daily s lim) t =
          if t - pv.1 ≤ lim then some (timeInterp pv.1 pv.2 qv.1 qv.2 t) else none) := by
  constructor
  · exact fun t v h => resample_daily_preserves s lim t v h
  · intro t pv qv h0 h1 h2
    obtain ⟨hpm, hpt⟩ := prevValid_facts s t pv h1
    obtain ⟨hqm, htq⟩ := nextValid_facts s t qv h2
    have hpi : pv.1 ∈ idx s := by
      have := mem_idx_of_mem_validPts s pv.1 pv.2 hpm
      simp only [idx, List.mem_map]
      exact ⟨(pv.1, some pv.2), this, rfl⟩
    have hqi : qv.1 ∈ idx s := by
      have := mem_idx_of_mem_validPts s qv.1 qv.2 hqm
      simp only [idx, List.mem_map]
      exact ⟨(qv.1, some qv.2), this, rfl⟩
    have hg : t ∈ gridIdx s := by
      refine mem_gridIdx_of_bounds s t (ne_nil_of_mem_idx s pv.1 hpi) ?_ ?_
      · exact le_trans (gridLo_le_of_mem s pv.1 hpi) (le_of_lt hpt)
      · exact le_trans (le_of_lt htq) (le_gridHi_of_mem s qv.1 hqi)
    rw [vlookup_resample_daily s lim t hg]
    exact interpAt_of_gap s lim t pv qv h0 h1 h2

/-- C2, claim as stated, refuted: in the series with observations at days
0 and 7 only, days 1-6 form a gap of 6 > 5 consecutive missing days, yet
the output of `resample_daily` with `gap_limit = 5` contains the
interpolated point (1, 1) inside that gap. -/
theorem resample_daily_long_gap_counterexample :
    ((1 : ℕ), some (1 : ℚ)) ∈ resample_daily [(0, some 0), (7, some 7)] 5
    ∧ atValid [((0 : ℕ), some (0 : ℚ)), (7, some 7)] 1 = none
    ∧ prevValid [((0 : ℕ), some (0 : ℚ)), (7, some 7)] 1 = some (0, 0)
    ∧ nextValid [((0 : ℕ), some (0 : ℚ)), (7, some 7)] 1 = some (7, 7)
    ∧ ¬ ((7 : ℕ) - 0 - 1 ≤ 5) := by
  refine ⟨?_, by decide, by decide, by decide, by decide⟩
  norm_num [resample_daily, dropna, gridIdx, gridHi, gridLo, idx, interpAt, atValid,
    validPts, prevValid, nextValid, timeInterp, List.range_succ, List.filter]

/-- C2 witness: the amended theorem applied to the series with
observations (0, 1) and (3, 4): day 0 is preserved and the missing day 1
gets the time-weighted value 2. -/
theorem resample_daily_gap_semantics_witness :
    ((0 : ℕ), some (1 : ℚ)) ∈ resample_daily [(0, some 1), (3, some 4)] 5
    ∧ vlookup (resample_daily [((0 : ℕ), some (1 : ℚ)), (3, some 4)] 5) 1 = some 2 := by
  have h := resample_daily_gap_semantics [((0 : ℕ), some (1 : ℚ)), (3, some 4)] 5
  constructor
  · exact h.1 0 1 (by decide)
  · have h2 := h.2 1 (0, 1) (3, 4) (by decide) (by decide) (by decide)
    rw [h2]
    norm_num [timeInterp]

/-- C7 (amended): `app.py` applies no lookback truncation to a fetched
FRED series: every observed point is retained by the stored pipeline
`resample('D').interpolate(method='time', limit=5).dropna()`, even when
it lies further before the run time than any lookback window. -/
theorem fred_no_lookback_truncation (s : TSeries) (lim runTime window t : ℕ) (v : ℚ)
    (hobs : atValid s t = some v) (hold : ¬ (runTime - t ≤ window)) :
    (t, some v) ∈ resample_daily s lim ∧ ¬ (runTime - t ≤ window) :=
  ⟨resample_daily_preserves s lim t v hobs, hold⟩

/-- C7, claim as stated, refuted: a FRED series observed at days 0 and 1,
stored by a run at day 10000, keeps the point at day 0, which lies within
none of the lookback windows of 90, 180, 365 or 730 days. -/
theorem fred_lookback_counterexample :
    ((0 : ℕ), some (1 : ℚ)) ∈ resample_daily [(0, some 1), (1, some 2)] 5
    ∧ ∀ window ∈ [90, 180, 365, 730], ¬ ((10000 : ℕ) - 0 ≤ window) := by
  constructor
  · norm_num [resample_daily, dropna, gridIdx, gridHi, gridLo, idx, interpAt, atValid,
      validPts, prevValid, nextValid, timeInterp, List.range_succ, List.filter]
  · decide

/-- C7 witness: the amended theorem applied to the same concrete series,
run time and the 730-day window. -/
theorem fred_no_lookback_truncation_witness :
    ((0 : ℕ), some (1 : ℚ)) ∈ resample_daily [(0, some 1), (1, some 2)] 5
    ∧ ¬ ((10000 : ℕ) - 0 ≤ 730) :=
  fred_no_lookback_truncation [((0 : ℕ), some (1 : ℚ)), (1, some 2)] 5 10000 730 0 1
    (by decide) (by decide)

/-! ### Union and intersection of indices. -/

theorem mem_mergeIdxAux : ∀ (fuel : ℕ) (xs ys : List ℕ) (t : ℕ),
    xs.length + ys.length ≤ fuel → (t ∈ mergeIdxAux fuel xs ys ↔ t ∈ xs ∨ t ∈ ys) := by
  intro fuel
  induction fuel with
  | zero => intro xs ys t _; simp [mergeIdxAux, List.mem_append]
  | succ fuel ih =>
    intro xs ys t hlen
    rcases xs with _ | ⟨x, xs⟩
    · simp [mergeIdxAux]
    · rcases ys with _ | ⟨y, ys⟩
      · simp [mergeIdxAux]
      · simp only [mergeIdxAux]
        by_cases hxy : x < y
        · rw [if_pos hxy]
          simp only [List.mem_cons,
            ih xs (y :: ys) t (by simp at hlen ⊢; omega)]
          tauto
        · rw [if_neg hxy]
          by_cases hyx : y < x
          · rw [if_pos hyx]
            simp only [List.mem_cons,
              ih (x :: xs) ys t (by simp at hlen ⊢; omega)]
            tauto
          · rw [if_neg hyx]
            have hxe : x = y := le_antisymm (le_of_not_lt hyx) (le_of_not_lt hxy)
            subst hxe
            simp only [List.mem_cons, ih xs ys t (by simp at hlen ⊢; omega)]
            tauto

theorem mem_unionIdx (a b : List ℕ) (t : ℕ) :
    t ∈ unionIdx a b ↔ t ∈ a ∨ t ∈ b :=
  mem_mergeIdxAux (a.length + b.length) a b t le_rfl

theorem mergeIdxAux_self : ∀ (fuel : ℕ) (l : List ℕ),
    l.length + l.length ≤ fuel → mergeIdxAux fuel l l = l := by
  intro fuel
  induction fuel with
  | zero =>
    intro l hlen
    have : l = [] := by
      rcases l with _ | _
      · rfl
      · simp at hlen
    subst this
    rfl
  | succ fuel ih =>
    intro l hlen
    rcases l with _ | ⟨x, xs⟩
    · rfl
    · simp only [mergeIdxAux, lt_irrefl, if_false]
      rw [ih xs (by simp at hlen ⊢; omega)]

theorem unionIdx_self (l : List ℕ) : unionIdx l l = l :=
  mergeIdxAux_self (l.length + l.length) l le_rfl

theorem mem_interIdx (a b : List ℕ) (t : ℕ) :
    t ∈ interIdx a b ↔ t ∈ a ∧ t ∈ b := by
  simp [interIdx, List.mem_filter]

theorem interIdx_self (l : List ℕ) : interIdx l l = l :=
  List.filter_eq_self.mpr (fun t ht => by simpa using ht)

/-! ### Pandas elementwise arithmetic. -/

theorem idx_pdBinop (f : Option ℚ → Option ℚ → Option ℚ) (a b : TSeries) :
    idx (pdBinop f a b) = unionIdx (idx a) (idx b) :=
  idx_map_graph (unionIdx (idx a) (idx b)) (fun t => f (vlookup a t) (vlookup b t))

theorem vlookup_pdBinop (f : Option ℚ → Option ℚ → Option ℚ) (a b : TSeries) (t : ℕ)
    (h : t ∈ unionIdx (idx a) (idx b)) :
    vlookup (pdBinop f a b) t = f (vlookup a t) (vlookup b t) :=
  vlookup_map_graph (unionIdx (idx a) (idx b))
    (fun t => f (vlookup a t) (vlookup b t)) t h

theorem osub_none_left (y : Option ℚ) : osub none y = none := by
  rcases y with _ | y <;> rfl

/-! ### Row selection by an index list. -/

theorem rowAt_loc_eq_none (s : TSeries) (c : List ℕ) (t : ℕ)
    (h : rowAt s t = none) : rowAt (loc s c) t = none := by
  induction c with
  | nil => rfl
  | cons u c ih =>
    simp only [loc, List.filterMap_cons]
    rcases hru : rowAt s u with _ | v
    · exact ih
    · simp only [Option.map_some']
      rw [rowAt_cons]
      by_cases he : u = t
      · subst he
        rw [hru] at h
        cases h
      · rw [if_neg he]
        exact ih

theorem rowAt_loc_of_mem (s : TSeries) : ∀ (c : List ℕ) (t : ℕ), t ∈ c →
    rowAt (loc s c) t = rowAt s t := by
  intro c
  induction c with
  | nil => intro t h; cases h
  | cons u c ih =>
    intro t h
    simp only [loc, List.filterMap_cons]
    rcases hru : rowAt s u with _ | v
    · by_cases he : u = t
      · subst he
        rw [hru]
        exact rowAt_loc_eq_none s c u hru
      · have h' : t ∈ c := by
          rcases List.mem_cons.mp h with h1 | h1
          · exact absurd h1.symm he
          · exact h1
        exact ih t h'
    · simp only [Option.map_some']
      rw [rowAt_cons]
      by_cases he : u = t
      · subst he
        rw [if_pos rfl, hru]
      · rw [if_neg he]
        have h' : t ∈ c := by
          rcases List.mem_cons.mp h with h1 | h1
          · exact absurd h1.symm he
          · exact h1
        exact ih t h'

theorem vlookup_loc_of_mem (s : TSeries) (c : List ℕ) (t : ℕ) (h : t ∈ c) :
    vlookup (loc s c) t = vlookup s t := by
  simp [vlookup, rowAt_loc_of_mem s c t h]

theorem rowAt_isSome_of_mem (s : TSeries) (t : ℕ) (h : t ∈ idx s) :
    ∃ v, rowAt s t = some v := by
  induction s with
  | nil => cases h
  | cons p s ih =>
    rw [rowAt_cons]
    by_cases he : p.1 = t
    · exact ⟨p.2, by rw [if_pos he]⟩
    · rw [if_neg he]
      refine ih ?_
      simp only [idx, List.map_cons, List.mem_cons] at h
      rcases h with h1 | h1
      · exact absurd h1.symm he
      · exact h1

theorem idx_loc_of_subset (s : TSeries) : ∀ (c : List ℕ), (∀ t ∈ c, t ∈ idx s) →
    idx (loc s c) = c := by
  intro c
  induction c with
  | nil => intro _; rfl
  | cons u c ih =>
    intro h
    obtain ⟨v, hv⟩ := rowAt_isSome_of_mem s u (h u (List.mem_cons_self u c))
    simp only [loc, List.filterMap_cons, hv, Option.map_some']
    simp only [idx, List.map_cons]
    have := ih (fun t ht => h t (List.mem_cons_of_mem u ht))
    simp only [loc, idx] at this
    rw [this]

/-! ### Alignment on the common timestamps. -/

theorem idx_align_fst (a b : TSeries) :
    idx (align a b).1 = interIdx (idx a) (idx b) :=
  idx_loc_of_subset a (interIdx (idx a) (idx b))
    (fun t ht => ((mem_interIdx (idx a) (idx b) t).mp ht).1)

theorem idx_align_snd (a b : TSeries) :
    idx (align a b).2 = interIdx (idx a) (idx b) :=
  idx_loc_of_subset b (interIdx (idx a) (idx b))
    (fun t ht => ((mem_interIdx (idx a) (idx b) t).mp ht).2)

theorem loc_loc_self (s : TSeries) (c : List ℕ) : loc (loc s c) c = loc s c := by
  refine List.filterMap_congr (fun t ht => ?_)
  rw [rowAt_loc_of_mem s c t ht]

/-- C8: `align` is commutative in the timestamp set it returns — both
components of `align a b` and of `align b a` carry exactly the
intersection of the two indices — and idempotent: aligning the two
already-aligned outputs returns them unchanged. -/
theorem align_commutative_idempotent (a b : TSeries) :
    (∀ t, (t ∈ idx (align a b).1 ↔ t ∈ idx (align b a).1)
      ∧ (t ∈ idx (align a b).1 ↔ t ∈ idx (align a b).2)
      ∧ (t ∈ idx (align a b).1 ↔ t ∈ idx a ∧ t ∈ idx b))
    ∧ align (align a b).1 (align a b).2 = align a b := by
  constructor
  · intro t
    rw [idx_align_fst a b, idx_align_snd a b, idx_align_fst b a]
    rw [mem_interIdx, mem_interIdx]
    tauto
  · show align (loc a (interIdx (idx a) (idx b))) (loc b (interIdx (idx a) (idx b)))
      = align a b
    have hc1 : idx (loc a (interIdx (idx a) (idx b))) = interIdx (idx a) (idx b) :=
      idx_align_fst a b
    have hc2 : idx (loc b (interIdx (idx a) (idx b))) = interIdx (idx a) (idx b) :=
      idx_align_snd a b
    show (loc (loc a (interIdx (idx a) (idx b)))
            (interIdx (idx (loc a (interIdx (idx a) (idx b))))
                      (idx (loc b (interIdx (idx a) (idx b))))),
          loc (loc b (interIdx (idx a) (idx b)))
            (interIdx (idx (loc a (interIdx (idx a) (idx b))))
                      (idx (loc b (interIdx (idx a) (idx b)))))) = align a b
    rw [hc1, hc2, interIdx_self]
    rw [loc_loc_self, loc_loc_self]
    rfl

/-- C6: the Gold/Oil ratio is carried exactly by the intersection of the
two indices, its value at a common timestamp is the float quotient of the
two values there, and in particular non-NaN inputs x and y with y ≠ 0
give exactly x / y. -/
theorem goldOil_ratio_semantics (a b : TSeries) :
    (∀ t, t ∈ idx (goldOil a b) ↔ t ∈ idx a ∧ t ∈ idx b)
    ∧ (∀ t, t ∈ idx a → t ∈ idx b →
        vlookup (goldOil a b) t = odiv (vlookup a t) (vlookup b t))
    ∧ (∀ t x y, vlookup a t = some x → vlookup b t = some y → ¬ (x = 0 ∧ y = 0) →
        vlookup (goldOil a b) t = some (x / y)) := by
  have hidx : idx (goldOil a b) = interIdx (idx a) (idx b) := by
    show idx (pdBinop odiv (align a b).1 (align a b).2) = interIdx (idx a) (idx b)
    rw [idx_pdBinop, idx_align_fst, idx_align_snd, unionIdx_self]
  have hval : ∀ t, t ∈ idx a → t ∈ idx b →
      vlookup (goldOil a b) t = odiv (vlookup a t) (vlookup b t) := by
    intro t hta htb
    have htc : t ∈ interIdx (idx a) (idx b) := (mem_interIdx _ _ t).mpr ⟨hta, htb⟩
    have hu : t ∈ unionIdx (idx (align a b).1) (idx (align a b).2) := by
      rw [idx_align_fst, idx_align_snd, unionIdx_self]
      exact htc
    show vlookup (pdBinop odiv (align a b).1 (align a b).2) t = _
    rw [vlookup_pdBinop odiv (align a b).1 (align a b).2 t hu]
    show odiv (vlookup (loc a (interIdx (idx a) (idx b))) t)
        (vlookup (loc b (interIdx (idx a) (idx b))) t) = _
    rw [vlookup_loc_of_mem a _ t htc, vlookup_loc_of_mem b _ t htc]
  refine ⟨fun t => by rw [hidx]; exact mem_interIdx (idx a) (idx b) t, hval, ?_⟩
  intro t x y hx hy hxy
  rw [hval t (mem_idx_of_vlookup_eq_some a t x hx) (mem_idx_of_vlookup_eq_some b t y hy),
    hx, hy]
  simp only [odiv, if_neg hxy]

/-- C6 witness: inputs 100 and 50 at the single shared date 1 yield the
ratio value 2 exactly at that date. -/
theorem goldOil_ratio_semantics_witness :
    vlookup (goldOil [((1 : ℕ), some (100 : ℚ))] [((1 : ℕ), some (50 : ℚ))]) 1 = some 2
    ∧ ((1 : ℕ) ∈ idx (goldOil [((1 : ℕ), some (100 : ℚ))] [((1 : ℕ), some (50 : ℚ))])
        ↔ (1 : ℕ) ∈ idx [((1 : ℕ), some (100 : ℚ))]
          ∧ (1 : ℕ) ∈ idx [((1 : ℕ), some (50 : ℚ))]) := by
  have h := goldOil_ratio_semantics [((1 : ℕ), some (100 : ℚ))] [((1 : ℕ), some (50 : ℚ))]
  constructor
  · have h3 := h.2.2 1 100 50 (by decide) (by decide) (by norm_num)
    rw [h3]
    norm_num
  · exact h.1 1

/-- C1 (amended): the chained pandas subtraction `a − b − c` behind
Net_Liquidity aligns on the UNION of the three indices, not their
intersection: the result's timestamp set is exactly the union, its value
is the NaN-propagating double subtraction of the three lookups (hence
non-NaN exactly on the triple intersection of non-NaN points), and at a
timestamp carried with non-NaN values x, y, z it equals x − y − z. -/
theorem netLiquidity_union_semantics (a b c : TSeries) :
    (∀ t, t ∈ idx (netLiquidity a b c) ↔ t ∈ idx a ∨ t ∈ idx b ∨ t ∈ idx c)
    ∧ (∀ t, t ∈ idx (netLiquidity a b c) →
        vlookup (netLiquidity a b c) t =
          osub (osub (vlookup a t) (vlookup b t)) (vlookup c t))
    ∧ (∀ t x y z, vlookup a t = some x → vlookup b t = some y →
        vlookup c t = some z →
        vlookup (netLiquidity a b c) t = some (x - y - z)) := by
  have hidx : ∀ t, t ∈ idx (netLiquidity a b c) ↔ t ∈ idx a ∨ t ∈ idx b ∨ t ∈ idx c := by
    intro t
    show t ∈ idx (pdBinop osub (pdSub a b) c) ↔ _
    rw [idx_pdBinop, mem_unionIdx]
    show t ∈ idx (pdBinop osub a b) ∨ _ ↔ _
    rw [idx_pdBinop, mem_unionIdx]
    tauto
  have hval : ∀ t, t ∈ idx (netLiquidity a b c) →
      vlookup (netLiquidity a b c) t =
        osub (osub (vlookup a t) (vlookup b t)) (vlookup c t) := by
    intro t ht
    have htu : t ∈ unionIdx (idx (pdSub a b)) (idx c) := by
      have h' := ht
      rwa [show idx (netLiquidity a b c) = unionIdx (idx (pdSub a b)) (idx c) from
        idx_pdBinop osub (pdSub a b) c] at h'
    show vlookup (pdBinop osub (pdSub a b) c) t = _
    rw [vlookup_pdBinop osub (pdSub a b) c t htu]
    by_cases hab : t ∈ unionIdx (idx a) (idx b)
    · rw [show vlookup (pdSub a b) t = osub (vlookup a t) (vlookup b t) from
        vlookup_pdBinop osub a b t hab]
    · have h1 : vlookup (pdSub a b) t = none := by
        refine vlookup_eq_none_of_not_mem _ t ?_
        show t ∉ idx (pdBinop osub a b)
        rw [idx_pdBinop]
        exact hab
      have h2 : vlookup a t = none := by
        refine vlookup_eq_none_of_not_mem a t (fun hc => hab ?_)
        rw [mem_unionIdx]
        exact Or.inl hc
      rw [h1, h2, osub_none_left, osub_none_left, osub_none_left]
  refine ⟨hidx, hval, ?_⟩
  intro t x y z hx hy hz
  have ht : t ∈ idx (netLiquidity a b c) :=
    (hidx t).mpr (Or.inl (mem_idx_of_vlookup_eq_some a t x hx))
  rw [hval t ht, hx, hy, hz]
  rfl

/-- C1, claim as stated, refuted: with inputs on days 1-5, 4-8 and
{4, 5, 9, 10, 11} — three 5-day series sharing exactly the two common
timestamps 4 and 5 — the chained subtraction yields a series of 11 points
(the union), not 2, and it carries day 1, which is absent from the second
input's index. -/
theorem netLiquidity_pairwise_counterexample :
    (netLiquidity
        [(1, some 1), (2, some 1), (3, some 1), (4, some 1), (5, some 1)]
        [(4, some 1), (5, some 1), (6, some 1), (7, some 1), (8, some 1)]
        [(4, some 1), (5, some 1), (9, some 1), (10, some 1), (11, some 1)]).length = 11
    ∧ ¬ (netLiquidity
        [(1, some 1), (2, some 1), (3, some 1), (4, some 1), (5, some 1)]
        [(4, some 1), (5, some 1), (6, some 1), (7, some 1), (8, some 1)]
        [(4, some 1), (5, some 1), (9, some 1), (10, some 1), (11, some 1)]).length = 2
    ∧ interIdx (interIdx
        (idx [((1 : ℕ), some (1 : ℚ)), (2, some 1), (3, some 1), (4, some 1), (5, some 1)])
        (idx [((4 : ℕ), some (1 : ℚ)), (5, some 1), (6, some 1), (7, some 1), (8, some 1)]))
        (idx [((4 : ℕ), some (1 : ℚ)), (5, some 1), (9, some 1), (10, some 1), (11, some 1)])
      = [4, 5]
    ∧ (1 : ℕ) ∈ idx (netLiquidity
        [(1, some 1), (2, some 1), (3, some 1), (4, some 1), (5, some 1)]
        [(4, some 1), (5, some 1), (6, some 1), (7, some 1), (8, some 1)]
        [(4, some 1), (5, some 1), (9, some 1), (10, some 1), (11, some 1)])
    ∧ (1 : ℕ) ∉ idx [((4 : ℕ), some (1 : ℚ)), (5, some 1), (6, some 1), (7, some 1), (8, some 1)] := by
  refine ⟨?_, ?_, by decide, ?_, by decide⟩
  · show (List.map _ (unionIdx _ _)).length = 11
    decide
  · show ¬ (List.map _ (unionIdx _ _)).length = 2
    decide
  · show (1 : ℕ) ∈ idx (pdBinop osub _ _)
    rw [idx_pdBinop, mem_unionIdx]
    left
    show (1 : ℕ) ∈ idx (pdBinop osub _ _)
    rw [idx_pdBinop, mem_unionIdx]
    left
    decide

/-- C1 witness: the amended theorem applied at day 1 of three one-point
series with values 3, 1, 1: the result carries day 1 with value 1. -/
theorem netLiquidity_union_semantics_witness :
    vlookup (netLiquidity [((1 : ℕ), some (3 : ℚ))] [((1 : ℕ), some (1 : ℚ))]
      [((1 : ℕ), some (1 : ℚ))]) 1 = some 1 := by
  have h := netLiquidity_union_semantics [((1 : ℕ), some (3 : ℚ))]
    [((1 : ℕ), some (1 : ℚ))] [((1 : ℕ), some (1 : ℚ))]
  have h3 := h.2.2 1 3 1 1 (by decide) (by decide) (by decide)
  rw [h3]
  norm_num

/-! ### Store (result mapping) lemmas. -/

theorem keys_append (st st' : Store) : keys (st ++ st') = keys st ++ keys st' :=
  List.map_append Prod.fst st st'

theorem getRow_eq_none_iff (st : Store) (k : SKey) :
    getRow st k = none ↔ k ∉ keys st := by
  induction st with
  | nil => simp [getRow, keys]
  | cons p st ih =>
    simp only [getRow, keys, List.map_cons, List.mem_cons]
    by_cases he : p.1 = k
    · simp [he]
    · rw [if_neg he, ih]
      simp only [keys]
      constructor
      · intro h hc
        rcases hc with hc | hc
        · exact he hc.symm
        · exact h hc
      · intro h hc
        exact h (Or.inr hc)

theorem getRow_append_left (st st' : Store) (k : SKey) (v : TSeries)
    (h : getRow st k = some v) : getRow (st ++ st') k = some v := by
  induction st with
  | nil => cases h
  | cons p st ih =>
    simp only [getRow, List.cons_append] at h ⊢
    by_cases he : p.1 = k
    · rwa [if_pos he] at h ⊢
    · rw [if_neg he] at h ⊢
      exact ih h

theorem getRow_append_right (st st' : Store) (k : SKey)
    (h : getRow st k = none) : getRow (st ++ st') k = getRow st' k := by
  induction st with
  | nil => rfl
  | cons p st ih =>
    simp only [getRow, List.cons_append] at h ⊢
    by_cases he : p.1 = k
    · rw [if_pos he] at h; cases h
    · rw [if_neg he] at h ⊢
      exact ih h

theorem getRow_append_congr (st1 st1' st2 : Store) (k : SKey)
    (h : getRow st1' k = getRow st1 k) :
    getRow (st1' ++ st2) k = getRow (st1 ++ st2) k := by
  rcases hr : getRow st1 k with _ | v
  · rw [getRow_append_right st1' st2 k (h.trans hr),
      getRow_append_right st1 st2 k hr]
  · rw [getRow_append_left st1' st2 k v (h.trans hr),
      getRow_append_left st1 st2 k v hr]

/-! ### The two fetch phases. -/

theorem fredEntries_cons (env : FetchEnv) (p : FredCode × SKey)
    (l : List (FredCode × SKey)) :
    fredEntries env (p :: l)
      = match env.fred p.1 with
        | none => fredEntries env l
        | some raw => (p.2, resample_daily raw 5) :: fredEntries env l := by
  simp only [fredEntries, List.filterMap_cons]
  rcases env.fred p.1 with _ | raw
  · rfl
  · rfl

theorem getRow_cons (p : SKey × TSeries) (st : Store) (k : SKey) :
    getRow (p :: st) k = if p.1 = k then some p.2 else getRow st k := rfl

theorem mem_keys_fredEntries (env : FetchEnv) (l : List (FredCode × SKey)) (k : SKey) :
    k ∈ keys (fredEntries env l) ↔ ∃ c, (c, k) ∈ l ∧ (env.fred c).isSome := by
  simp only [keys, fredEntries, List.mem_map, List.mem_filterMap]
  constructor
  · rintro ⟨q, ⟨p, hp, hf⟩, hqk⟩
    rcases henv : env.fred p.1 with _ | raw
    · rw [henv, Option.map_none'] at hf
      cases hf
    · rw [henv, Option.map_some'] at hf
      have hq : (p.2, resample_daily raw 5) = q := Option.some.inj hf
      have hpk : p.2 = k := by rw [← hqk, ← hq]
      refine ⟨p.1, ?_, by simp [henv]⟩
      have heq : (p.1, k) = p := by rw [← hpk]
      rw [heq]
      exact hp
  · rintro ⟨c, hc, hs⟩
    rcases henv : env.fred c with _ | raw
    · rw [henv] at hs
      cases hs
    · exact ⟨(k, resample_daily raw 5), ⟨(c, k), hc, by simp [henv]⟩, rfl⟩

theorem mem_keys_yahooEntries (env : FetchEnv) (l : List (SKey × Tick)) (k : SKey) :
    k ∈ keys (yahooEntries env l) ↔ ∃ sym, (k, sym) ∈ l ∧ yahooOk env sym := by
  simp only [keys, yahooEntries, List.mem_map, List.mem_filterMap]
  constructor
  · rintro ⟨q, ⟨p, hp, hf⟩, hqk⟩
    rcases henv : env.yahoo p.2 with _ | df
    · rw [henv] at hf
      simp only [Option.none_bind] at hf
      cases hf
    · rw [henv] at hf
      simp only [Option.some_bind] at hf
      by_cases hemp : df.isEmpty
      · rw [if_pos hemp] at hf
        cases hf
      · rw [if_neg hemp] at hf
        have hq : (p.1, dropna df) = q := Option.some.inj hf
        have hpk : p.1 = k := by rw [← hqk, ← hq]
        refine ⟨p.2, ?_, df, henv, fun hc => hemp (by rw [hc]; rfl)⟩
        have heq : (k, p.2) = p := by rw [← hpk]
        rw [heq]
        exact hp
  · rintro ⟨sym, hc, df, hdf, hne⟩
    have hemp : df.isEmpty = false := by
      rcases df with _ | _
      · exact absurd rfl hne
      · rfl
    exact ⟨(k, dropna df), ⟨(k, sym), hc, by simp [hdf, hemp, hne]⟩, rfl⟩

theorem yahooEntries_congr (env env' : FetchEnv) (l : List (SKey × Tick))
    (h : ∀ sym, env'.yahoo sym = env.yahoo sym) :
    yahooEntries env' l = yahooEntries env l :=
  List.filterMap_congr (fun p _ => by rw [h p.2])

theorem getRow_fredEntries_congr (env env' : FetchEnv) :
    ∀ (l : List (FredCode × SKey)) (k : SKey),
    (∀ p ∈ l, p.2 = k → env'.fred p.1 = env.fred p.1) →
    getRow (fredEntries env' l) k = getRow (fredEntries env l) k := by
  intro l
  induction l with
  | nil => intro k _; rfl
  | cons p l ih =>
    intro k h
    have htail := ih k (fun q hq hqk => h q (List.mem_cons_of_mem p hq) hqk)
    rw [fredEntries_cons env p l, fredEntries_cons env' p l]
    by_cases hpk : p.2 = k
    · have henv := h p (List.mem_cons_self p l) hpk
      rw [henv]
      rcases henv2 : env.fred p.1 with _ | raw
      · exact htail
      · simp only [getRow_cons, if_pos hpk]
    · rcases henv' : env'.fred p.1 with _ | raw' <;>
        rcases henv : env.fred p.1 with _ | raw <;>
        simp only [getRow_cons, if_neg hpk] <;>
        exact htail


/-! ### Disjointness of the key tables, decided over the finite types. -/

theorem fred_key_unique : ∀ (c c' : FredCode) (k : SKey),
    (c, k) ∈ fredCodes → (c', k) ∈ fredCodes → c = c' := by decide

theorem fred_key_not_yahoo : ∀ (c : FredCode) (k : SKey) (sym : Tick),
    (c, k) ∈ fredCodes → (k, sym) ∉ tickers := by decide

theorem fred_key_not_derived : ∀ (c : FredCode) (k : SKey),
    (c, k) ∈ fredCodes → k ≠ SKey.Gold_Oil ∧ k ≠ SKey.Net_Liquidity := by decide

theorem yahoo_key_unique : ∀ (k : SKey) (sym sym' : Tick),
    (k, sym) ∈ tickers → (k, sym') ∈ tickers → sym = sym' := by decide

theorem yahoo_key_not_derived : ∀ (k : SKey) (sym : Tick),
    (k, sym) ∈ tickers → k ≠ SKey.Gold_Oil ∧ k ≠ SKey.Net_Liquidity := by decide

/-! ### Key presence after the fetch phases. -/

theorem mem_keys_phase12_fred (env : FetchEnv) (c : FredCode) (k : SKey)
    (h : (c, k) ∈ fredCodes) : k ∈ keys (phase12 env) ↔ fredOk env c := by
  rw [phase12, keys_append, List.mem_append, mem_keys_fredEntries, mem_keys_yahooEntries]
  constructor
  · rintro (⟨c', hc', hs⟩ | ⟨sym, hsym, _⟩)
    · rw [fred_key_unique c c' k h hc']
      exact Option.isSome_iff_exists.mp hs
    · exact absurd hsym (fred_key_not_yahoo c k sym h)
  · rintro ⟨raw, hr⟩
    exact Or.inl ⟨c, h, by simp [hr]⟩

theorem mem_keys_phase12_yahoo (env : FetchEnv) (k : SKey) (sym : Tick)
    (h : (k, sym) ∈ tickers) : k ∈ keys (phase12 env) ↔ yahooOk env sym := by
  rw [phase12, keys_append, List.mem_append, mem_keys_fredEntries, mem_keys_yahooEntries]
  constructor
  · rintro (⟨c, hc, _⟩ | ⟨sym', hsym, hok⟩)
    · exact absurd h (fred_key_not_yahoo c k sym hc)
    · rw [yahoo_key_unique k sym sym' h hsym]
      exact hok
  · intro hok
    exact Or.inr ⟨sym, h, hok⟩

theorem derived_not_mem_phase12 (env : FetchEnv) (k : SKey)
    (h1 : ∀ c, (c, k) ∉ fredCodes) (h2 : ∀ sym, (k, sym) ∉ tickers) :
    k ∉ keys (phase12 env) := by
  rw [phase12, keys_append, List.mem_append, mem_keys_fredEntries, mem_keys_yahooEntries]
  rintro (⟨c, hc, _⟩ | ⟨sym, hsym, _⟩)
  · exact h1 c hc
  · exact h2 sym hsym

/-! ### The two derived-metric steps. -/

theorem keys_singleton (p : SKey × TSeries) : keys [p] = [p.1] := rfl

theorem mem_keys_withGoldOil (st : Store) (k : SKey) :
    k ∈ keys (withGoldOil st) ↔
      k ∈ keys st ∨ (k = SKey.Gold_Oil ∧ SKey.Gold ∈ keys st ∧ SKey.Oil ∈ keys st) := by
  unfold withGoldOil
  by_cases h : SKey.Gold ∈ keys st ∧ SKey.Oil ∈ keys st
  · rw [if_pos h, keys_append, List.mem_append, keys_singleton, List.mem_singleton,
      and_iff_left h]
  · rw [if_neg h]
    constructor
    · exact Or.inl
    · rintro (hk | ⟨_, hg, ho⟩)
      · exact hk
      · exact absurd ⟨hg, ho⟩ h

theorem mem_keys_withNetLiq (st : Store) (k : SKey) :
    k ∈ keys (withNetLiq st) ↔
      k ∈ keys st ∨ (k = SKey.Net_Liquidity ∧ SKey.Fed_BS ∈ keys st
        ∧ SKey.TGA ∈ keys st ∧ SKey.ON_RRP ∈ keys st) := by
  unfold withNetLiq
  by_cases h : SKey.Fed_BS ∈ keys st ∧ SKey.TGA ∈ keys st ∧ SKey.ON_RRP ∈ keys st
  · rw [if_pos h, keys_append, List.mem_append, keys_singleton, List.mem_singleton,
      and_iff_left h]
  · rw [if_neg h]
    constructor
    · exact Or.inl
    · rintro (hk | ⟨_, hg, ho, hr⟩)
      · exact hk
      · exact absurd ⟨hg, ho, hr⟩ h

theorem getRow_withGoldOil (st : Store) (k : SKey) (h : k ≠ SKey.Gold_Oil) :
    getRow (withGoldOil st) k = getRow st k := by
  unfold withGoldOil
  by_cases hc : SKey.Gold ∈ keys st ∧ SKey.Oil ∈ keys st
  · rw [if_pos hc]
    rcases hr : getRow st k with _ | v
    · rw [getRow_append_right st _ k hr]
      simp only [getRow_cons]
      rw [if_neg (fun e => h e.symm)]
      rfl
    · exact getRow_append_left st _ k v hr
  · rw [if_neg hc]

theorem getRow_withNetLiq (st : Store) (k : SKey) (h : k ≠ SKey.Net_Liquidity) :
    getRow (withNetLiq st) k = getRow st k := by
  unfold withNetLiq
  by_cases hc : SKey.Fed_BS ∈ keys st ∧ SKey.TGA ∈ keys st ∧ SKey.ON_RRP ∈ keys st
  · rw [if_pos hc]
    rcases hr : getRow st k with _ | v
    · rw [getRow_append_right st _ k hr]
      simp only [getRow_cons]
      rw [if_neg (fun e => h e.symm)]
      rfl
    · exact getRow_append_left st _ k v hr
  · rw [if_neg hc]

theorem fred_mem_withGoldOil (env : FetchEnv) (c : FredCode) (k : SKey)
    (h : (c, k) ∈ fredCodes) :
    k ∈ keys (withGoldOil (phase12 env)) ↔ fredOk env c := by
  rw [mem_keys_withGoldOil]
  constructor
  · rintro (hk | ⟨he, _⟩)
    · exact (mem_keys_phase12_fred env c k h).mp hk
    · exact absurd he (fred_key_not_derived c k h).1
  · intro hk
    exact Or.inl ((mem_keys_phase12_fred env c k h).mpr hk)

theorem goldOil_present_iff (env : FetchEnv) :
    SKey.Gold_Oil ∈ keys (get_macro_data env) ↔
      yahooOk env .GC_F ∧ yahooOk env .CL_F := by
  unfold get_macro_data
  rw [mem_keys_withNetLiq, mem_keys_withGoldOil]
  have hnp : SKey.Gold_Oil ∉ keys (phase12 env) :=
    derived_not_mem_phase12 env _ (by decide) (by decide)
  have hGold := mem_keys_phase12_yahoo env SKey.Gold Tick.GC_F (by decide)
  have hOil := mem_keys_phase12_yahoo env SKey.Oil Tick.CL_F (by decide)
  constructor
  · rintro ((hk | ⟨_, hg, ho⟩) | ⟨he, _⟩)
    · exact absurd hk hnp
    · exact ⟨hGold.mp hg, hOil.mp ho⟩
    · exact absurd he (by decide)
  · rintro ⟨hg, ho⟩
    exact Or.inl (Or.inr ⟨rfl, hGold.mpr hg, hOil.mpr ho⟩)

theorem netLiq_present_iff (env : FetchEnv) :
    SKey.Net_Liquidity ∈ keys (get_macro_data env) ↔
      fredOk env .WALCL ∧ fredOk env .WTREGEN ∧ fredOk env .RRPONTSYD := by
  unfold get_macro_data
  rw [mem_keys_withNetLiq]
  have hBS := fred_mem_withGoldOil env FredCode.WALCL SKey.Fed_BS (by decide)
  have hTGA := fred_mem_withGoldOil env FredCode.WTREGEN SKey.TGA (by decide)
  have hRRP := fred_mem_withGoldOil env FredCode.RRPONTSYD SKey.ON_RRP (by decide)
  have hnp : SKey.Net_Liquidity ∉ keys (withGoldOil (phase12 env)) := by
    rw [mem_keys_withGoldOil]
    rintro (hk | ⟨he, _⟩)
    · exact derived_not_mem_phase12 env _ (by decide) (by decide) hk
    · exact absurd he (by decide)
  constructor
  · rintro (hk | ⟨_, h1, h2, h3⟩)
    · exact absurd hk hnp
    · exact ⟨hBS.mp h1, hTGA.mp h2, hRRP.mp h3⟩
  · rintro ⟨h1, h2, h3⟩
    exact Or.inr ⟨rfl, hBS.mpr h1, hTGA.mpr h2, hRRP.mpr h3⟩

/-- C4: a derived key is present in the result mapping exactly when every
one of its input series was successfully fetched in the same run:
Gold_Oil iff the GC=F and CL=F downloads returned non-empty frames, and
Net_Liquidity iff the WALCL, WTREGEN and RRPONTSYD fetches succeeded. -/
theorem derived_keys_iff_inputs_fetched (env : FetchEnv) :
    (SKey.Gold_Oil ∈ keys (get_macro_data env) ↔
      yahooOk env .GC_F ∧ yahooOk env .CL_F)
    ∧ (SKey.Net_Liquidity ∈ keys (get_macro_data env) ↔
      fredOk env .WALCL ∧ fredOk env .WTREGEN ∧ fredOk env .RRPONTSYD) :=
  ⟨goldOil_present_iff env, netLiq_present_iff env⟩

theorem fredEntries_congr (env env' : FetchEnv) (l : List (FredCode × SKey))
    (h : ∀ c, env'.fred c = env.fred c) :
    fredEntries env' l = fredEntries env l :=
  List.filterMap_congr (fun p _ => by rw [h p.1])

theorem yahooEntries_cons (env : FetchEnv) (p : SKey × Tick) (l : List (SKey × Tick)) :
    yahooEntries env (p :: l)
      = match env.yahoo p.2 with
        | none => yahooEntries env l
        | some df =>
          if df.isEmpty then yahooEntries env l
          else (p.1, dropna df) :: yahooEntries env l := by
  simp only [yahooEntries, List.filterMap_cons]
  rcases env.yahoo p.2 with _ | df
  · rfl
  · simp only [Option.some_bind]
    by_cases hemp : df.isEmpty
    · simp [hemp]
    · simp [hemp]

theorem getRow_yahooEntries_congr (env env' : FetchEnv) :
    ∀ (l : List (SKey × Tick)) (k : SKey),
    (∀ p ∈ l, p.1 = k → env'.yahoo p.2 = env.yahoo p.2) →
    getRow (yahooEntries env' l) k = getRow (yahooEntries env l) k := by
  intro l
  induction l with
  | nil => intro k _; rfl
  | cons p l ih =>
    intro k h
    have htail := ih k (fun q hq hqk => h q (List.mem_cons_of_mem p hq) hqk)
    rw [yahooEntries_cons env p l, yahooEntries_cons env' p l]
    by_cases hpk : p.1 = k
    · have henv := h p (List.mem_cons_self p l) hpk
      rw [henv]
      rcases henv2 : env.yahoo p.2 with _ | df
      · exact htail
      · show getRow (if df.isEmpty then yahooEntries env' l
            else (p.1, dropna df) :: yahooEntries env' l) k
          = getRow (if df.isEmpty then yahooEntries env l
            else (p.1, dropna df) :: yahooEntries env l) k
        by_cases hemp : df.isEmpty
        · rw [if_pos hemp, if_pos hemp]
          exact htail
        · rw [if_neg hemp, if_neg hemp, getRow_cons, getRow_cons, if_pos hpk, if_pos hpk]
    · rcases henv' : env'.yahoo p.2 with _ | df' <;>
        rcases henv : env.yahoo p.2 with _ | df
      · exact htail
      · show getRow (yahooEntries env' l) k
          = getRow (if df.isEmpty then yahooEntries env l
            else (p.1, dropna df) :: yahooEntries env l) k
        by_cases hemp : df.isEmpty
        · rw [if_pos hemp]
          exact htail
        · rw [if_neg hemp, getRow_cons, if_neg hpk]
          exact htail
      · show getRow (if df'.isEmpty then yahooEntries env' l
            else (p.1, dropna df') :: yahooEntries env' l) k
          = getRow (yahooEntries env l) k
        by_cases hemp : df'.isEmpty
        · rw [if_pos hemp]
          exact htail
        · rw [if_neg hemp, getRow_cons, if_neg hpk]
          exact htail
      · show getRow (if df'.isEmpty then yahooEntries env' l
            else (p.1, dropna df') :: yahooEntries env' l) k
          = getRow (if df.isEmpty then yahooEntries env l
            else (p.1, dropna df) :: yahooEntries env l) k
        by_cases hemp' : df'.isEmpty <;> by_cases hemp : df.isEmpty
        · rw [if_pos hemp', if_pos hemp]
          exact htail
        · rw [if_pos hemp', if_neg hemp, getRow_cons, if_neg hpk]
          exact htail
        · rw [if_neg hemp', if_pos hemp, getRow_cons, if_neg hpk]
          exact htail
        · rw [if_neg hemp', if_neg hemp, getRow_cons, getRow_cons,
            if_neg hpk, if_neg hpk]
          exact htail

theorem getRow_append_congr2 (st1 st1' st2 st2' : Store) (k : SKey)
    (h1 : getRow st1' k = getRow st1 k) (h2 : getRow st2' k = getRow st2 k) :
    getRow (st1' ++ st2') k = getRow (st1 ++ st2) k := by
  rcases hr : getRow st1 k with _ | v
  · rw [getRow_append_right st1' st2' k (h1.trans hr), getRow_append_right st1 st2 k hr]
    exact h2
  · rw [getRow_append_left st1' st2' k v (h1.trans hr), getRow_append_left st1 st2 k v hr]

/-- C3: in a run where a single fetch raises — one FRED code or one Yahoo
ticker — and every other fetch behaves as before, the orchestrator still
produces a mapping in which the failed series' key is absent, every other
FRED series and every other Yahoo series is exactly what it would
otherwise have been, and each derived metric is still computed whenever
its own inputs succeeded. -/
theorem single_fetch_failure_isolated (env env' : FetchEnv) :
    (∀ c₀ : FredCode, env'.fred c₀ = none →
      (∀ c, c ≠ c₀ → env'.fred c = env.fred c) →
      (∀ sym, env'.yahoo sym = env.yahoo sym) →
      (∀ k, (c₀, k) ∈ fredCodes → k ∉ keys (get_macro_data env'))
      ∧ (∀ c k, (c, k) ∈ fredCodes → c ≠ c₀ →
          getS (get_macro_data env') k = getS (get_macro_data env) k)
      ∧ (∀ k sym, (k, sym) ∈ tickers →
          getS (get_macro_data env') k = getS (get_macro_data env) k)
      ∧ (yahooOk env' .GC_F → yahooOk env' .CL_F →
          SKey.Gold_Oil ∈ keys (get_macro_data env'))
      ∧ (fredOk env' .WALCL → fredOk env' .WTREGEN → fredOk env' .RRPONTSYD →
          SKey.Net_Liquidity ∈ keys (get_macro_data env')))
    ∧ (∀ sym₀ : Tick, env'.yahoo sym₀ = none →
      (∀ sym, sym ≠ sym₀ → env'.yahoo sym = env.yahoo sym) →
      (∀ c, env'.fred c = env.fred c) →
      (∀ k, (k, sym₀) ∈ tickers → k ∉ keys (get_macro_data env'))
      ∧ (∀ c k, (c, k) ∈ fredCodes →
          getS (get_macro_data env') k = getS (get_macro_data env) k)
      ∧ (∀ k sym, (k, sym) ∈ tickers → sym ≠ sym₀ →
          getS (get_macro_data env') k = getS (get_macro_data env) k)
      ∧ (yahooOk env' .GC_F → yahooOk env' .CL_F →
          SKey.Gold_Oil ∈ keys (get_macro_data env'))
      ∧ (fredOk env' .WALCL → fredOk env' .WTREGEN → fredOk env' .RRPONTSYD →
          SKey.Net_Liquidity ∈ keys (get_macro_data env'))) := by
  have hrow : ∀ k, k ≠ SKey.Gold_Oil → k ≠ SKey.Net_Liquidity →
      (∀ c, (c, k) ∈ fredCodes → env'.fred c = env.fred c) →
      (∀ sym, (k, sym) ∈ tickers → env'.yahoo sym = env.yahoo sym) →
      getRow (get_macro_data env') k = getRow (get_macro_data env) k := by
    intro k hk1 hk2 hcodes hsyms
    unfold get_macro_data
    rw [getRow_withNetLiq _ k hk2, getRow_withNetLiq _ k hk2,
      getRow_withGoldOil _ k hk1, getRow_withGoldOil _ k hk1]
    unfold phase12
    exact getRow_append_congr2 _ _ _ _ k
      (getRow_fredEntries_congr env env' fredCodes k
        (fun p hp hpk => hcodes p.1 (by rw [← hpk]; exact hp)))
      (getRow_yahooEntries_congr env env' tickers k
        (fun p hp hpk => hsyms p.2 (by rw [← hpk]; exact hp)))
  constructor
  · intro c₀ hfail hf hy
    refine ⟨?_, ?_, ?_, ?_, ?_⟩
    · intro k hk
      have hder := fred_key_not_derived c₀ k hk
      unfold get_macro_data
      rw [mem_keys_withNetLiq, mem_keys_withGoldOil]
      rintro ((hm | ⟨he, _⟩) | ⟨he, _⟩)
      · obtain ⟨raw, hr⟩ := (mem_keys_phase12_fred env' c₀ k hk).mp hm
        rw [hfail] at hr
        cases hr
      · exact absurd he hder.1
      · exact absurd he hder.2
    · intro c k hk hne
      have hder := fred_key_not_derived c k hk
      unfold getS
      rw [hrow k hder.1 hder.2
        (fun c' hc' => by rw [fred_key_unique c' c k hc' hk]; exact hf c hne)
        (fun sym _ => hy sym)]
    · intro k sym hk
      have hder := yahoo_key_not_derived k sym hk
      unfold getS
      rw [hrow k hder.1 hder.2
        (fun c' hc' => absurd hk (fred_key_not_yahoo c' k sym hc'))
        (fun sym' _ => hy sym')]
    · intro h1 h2
      exact (goldOil_present_iff env').mpr ⟨h1, h2⟩
    · intro h1 h2 h3
      exact (netLiq_present_iff env').mpr ⟨h1, h2, h3⟩
  · intro sym₀ hfail hyagree hfagree
    refine ⟨?_, ?_, ?_, ?_, ?_⟩
    · intro k hk
      have hder := yahoo_key_not_derived k sym₀ hk
      unfold get_macro_data
      rw [mem_keys_withNetLiq, mem_keys_withGoldOil]
      rintro ((hm | ⟨he, _⟩) | ⟨he, _⟩)
      · rw [phase12, keys_append, List.mem_append, mem_keys_fredEntries,
          mem_keys_yahooEntries] at hm
        rcases hm with ⟨c, hc, _⟩ | ⟨sym', hsym', df, hdf, _⟩
        · exact fred_key_not_yahoo c k sym₀ hc hk
        · rw [yahoo_key_unique k sym' sym₀ hsym' hk, hfail] at hdf
          cases hdf
      · exact absurd he hder.1
      · exact absurd he hder.2
    · intro c k hk
      have hder := fred_key_not_derived c k hk
      unfold getS
      rw [hrow k hder.1 hder.2
        (fun c' _ => hfagree c')
        (fun sym hsym => absurd hsym (fred_key_not_yahoo c k sym hk))]
    · intro k sym hk hne
      have hder := yahoo_key_not_derived k sym hk
      unfold getS
      rw [hrow k hder.1 hder.2
        (fun c' hc' => absurd hk (fred_key_not_yahoo c' k sym hc'))
        (fun sym' hsym' => by
          rw [yahoo_key_unique k sym' sym hsym' hk]
          exact hyagree sym hne)]
    · intro h1 h2
      exact (goldOil_present_iff env').mpr ⟨h1, h2⟩
    · intro h1 h2 h3
      exact (netLiq_present_iff env').mpr ⟨h1, h2, h3⟩

/-- C3 witness: the isolation theorem applied to two concrete runs. With
WALCL raising, Fed_BS is missing, TGA is unchanged and Gold_Oil is still
computed; with GC=F raising, Gold is missing, DXY is unchanged and
Net_Liquidity is still computed. -/
theorem single_fetch_failure_isolated_witness :
    (SKey.Fed_BS ∉ keys (get_macro_data envNoWalcl)
      ∧ getS (get_macro_data envNoWalcl) SKey.TGA = getS (get_macro_data envAll) SKey.TGA
      ∧ SKey.Gold_Oil ∈ keys (get_macro_data envNoWalcl))
    ∧ (SKey.Gold ∉ keys (get_macro_data envNoGold)
      ∧ getS (get_macro_data envNoGold) SKey.DXY = getS (get_macro_data envAll) SKey.DXY
      ∧ SKey.Net_Liquidity ∈ keys (get_macro_data envNoGold)) := by
  constructor
  · have h := (single_fetch_failure_isolated envAll envNoWalcl).1 FredCode.WALCL
      (by decide)
      (fun c hc => by
        rcases c with _ | _ | _ | _ | _ | _ | _ | _ | _
        · exact absurd rfl hc
        all_goals rfl)
      (fun _ => rfl)
    exact ⟨h.1 SKey.Fed_BS (by decide),
      h.2.1 FredCode.WTREGEN SKey.TGA (by decide) (by decide),
      h.2.2.2.1 ⟨[(0, some 1)], rfl, by decide⟩ ⟨[(0, some 1)], rfl, by decide⟩⟩
  · have h := (single_fetch_failure_isolated envAll envNoGold).2 Tick.GC_F
      (by decide)
      (fun s hs => by
        rcases s with _ | _ | _ | _ | _ | _ | _
        · exact absurd rfl hs
        all_goals rfl)
      (fun _ => rfl)
    exact ⟨h.1 SKey.Gold (by decide),
      h.2.2.1 SKey.DXY Tick.DX_Y_NYB (by decide) (by decide),
      h.2.2.2.2 ⟨[(0, some 1)], rfl⟩ ⟨[(0, some 1)], rfl⟩ ⟨[(0, some 1)], rfl⟩⟩

/-! ### Stale-tail truncation (spec §4.3, modelled from the spec). -/

theorem filter_range_getLast_eq (p : ℕ → Bool) : ∀ (n i : ℕ), i < n → p i = true →
    (∀ j, i < j → j < n → p j = false) →
    ((List.range n).filter p).getLast? = some i := by
  intro n
  induction n with
  | zero => intro i hi _ _; omega
  | succ n ih =>
    intro i hi hpi hafter
    rw [List.range_succ, List.filter_append]
    by_cases hin : i = n
    · subst hin
      rw [show List.filter p [i] = [i] from by simp [List.filter_cons, hpi]]
      exact List.getLast?_concat _
    · have hpn : p n = false := hafter n (by omega) (by omega)
      rw [show List.filter p [n] = [] from by simp [List.filter_cons, hpn]]
      rw [List.append_nil]
      exact ih i (by omega) hpi (fun j h1 h2 => hafter j h1 (by omega))

theorem lastDiffIdx_eq_some (s : List (ℕ × ℚ)) (v : ℚ) (i : ℕ) (hi : i < s.length)
    (hne : (s.map Prod.snd).get? i ≠ some v)
    (hafter : ∀ j ∈ List.range s.length, i < j → (s.map Prod.snd).get? j = some v) :
    lastDiffIdx s v = some i := by
  unfold lastDiffIdx
  refine filter_range_getLast_eq _ s.length i hi (decide_eq_true hne) ?_
  intro j h1 h2
  exact decide_eq_false (fun hP => hP (hafter j (List.mem_range.mpr h2) h1))

theorem lastDiffIdx_eq_none (s : List (ℕ × ℚ)) (v : ℚ)
    (hall : ∀ j ∈ List.range s.length, (s.map Prod.snd).get? j = some v) :
    lastDiffIdx s v = none := by
  unfold lastDiffIdx
  rw [List.filter_eq_nil_iff.mpr (fun j hj => by
    rw [decide_eq_false (not_not_intro (hall j hj))]
    simp)]
  rfl

/-- C5 (spec-modelled): when the final five values are all identical and
an earlier index carries a differing value, `staleTruncate` cuts the
series immediately after the last such index; when the final five values
are not all identical, or every value equals the flat value, the series
is returned unchanged. -/
theorem staleTruncate_stale_tail_spec :
    (∀ (s : List (ℕ × ℚ)) (v : ℚ) (rest : List ℚ) (i : ℕ),
      lastVals s 5 = v :: rest → flatTail 5 s = true → i < s.length →
      (s.map Prod.snd).get? i ≠ some v →
      (∀ j ∈ List.range s.length, i < j → (s.map Prod.snd).get? j = some v) →
      staleTruncate 5 s = s.take (i + 1))
    ∧ (∀ s, flatTail 5 s = false → staleTruncate 5 s = s)
    ∧ (∀ (s : List (ℕ × ℚ)) (v : ℚ) (rest : List ℚ),
      lastVals s 5 = v :: rest →
      (∀ j ∈ List.range s.length, (s.map Prod.snd).get? j = some v) →
      staleTruncate 5 s = s) := by
  refine ⟨?_, ?_, ?_⟩
  · intro s v rest i hlv hflat hi hne hafter
    have hld := lastDiffIdx_eq_some s v i hi hne hafter
    simp only [staleTruncate, hlv, hflat, if_true, hld]
  · intro s hflat
    unfold staleTruncate
    rcases hlv : lastVals s 5 with _ | ⟨v, rest⟩
    · rfl
    · simp [hflat]
  · intro s v rest hlv hall
    have hld := lastDiffIdx_eq_none s v hall
    simp only [staleTruncate, hlv, hld]
    by_cases hflat : flatTail 5 s <;> simp [hflat]

/-- C5 witness: the [1,2,3,5,5,5,5,5] series (5-flat tail) truncates to
[1,2,3], and the [1,2,3,4,5] series (no flat tail) is unchanged. -/
theorem staleTruncate_stale_tail_spec_witness :
    staleTruncate 5 [(0, 1), (1, 2), (2, 3), (3, 5), (4, 5), (5, 5), (6, 5), (7, 5)]
      = [((0 : ℕ), (1 : ℚ)), (1, 2), (2, 3)]
    ∧ staleTruncate 5 [(0, 1), (1, 2), (2, 3), (3, 4), (4, 5)]
      = [((0 : ℕ), (1 : ℚ)), (1, 2), (2, 3), (3, 4), (4, 5)] := by
  constructor
  · exact (staleTruncate_stale_tail_spec.1
      [(0, 1), (1, 2), (2, 3), (3, 5), (4, 5), (5, 5), (6, 5), (7, 5)]
      5 [5, 5, 5, 5] 2 (by decide) (by decide) (by decide) (by decide)
      (by decide)).trans (by decide)
  · exact staleTruncate_stale_tail_spec.2.1
      [(0, 1), (1, 2), (2, 3), (3, 4), (4, 5)] (by decide)

/-! ### The renderer guard. -/

/-- C9: `plot_full_card` skips `None` and empty series, renders any
series of at least two points, but raises `IndexError` on every series of
exactly one point: the `display.iloc[-2]` read is out of bounds although
the function's own guard only rejects `None` or empty input. -/
theorem plot_full_card_needs_two_points :
    (∀ l : TSeries, l.length = 1 → plot_full_card (some l) = PlotOutcome.indexError)
    ∧ plot_full_card none = PlotOutcome.skipped
    ∧ plot_full_card (some []) = PlotOutcome.skipped
    ∧ (∀ l : TSeries, 2 ≤ l.length →
        ∃ c p, plot_full_card (some l) = PlotOutcome.rendered c p) := by
  refine ⟨?_, rfl, rfl, ?_⟩
  · intro l hl
    obtain ⟨q, rfl⟩ := List.length_eq_one.mp hl
    simp [plot_full_card, ilocNeg]
  · intro l hl
    have hne : l.isEmpty = false := by
      rcases l with _ | _
      · simp at hl
      · rfl
    have hlen : (l.drop (l.length - 90)).length = l.length - (l.length - 90) :=
      List.length_drop _ _
    have h2 : 2 ≤ (l.drop (l.length - 90)).length := by omega
    have hi1 : (l.drop (l.length - 90)).length - 1 < (l.drop (l.length - 90)).length := by
      omega
    have hi2 : (l.drop (l.length - 90)).length - 2 < (l.drop (l.length - 90)).length := by
      omega
    refine ⟨((l.drop (l.length - 90)).get ⟨_, hi1⟩).2,
      ((l.drop (l.length - 90)).get ⟨_, hi2⟩).2, ?_⟩
    simp only [plot_full_card, hne, Bool.false_eq_true, if_false]
    rw [show ilocNeg (l.drop (l.length - 90)) 1
        = some ((l.drop (l.length - 90)).get ⟨(l.drop (l.length - 90)).length - 1, hi1⟩)
      from by simp [ilocNeg, List.get?_eq_get hi1]; omega]
    rw [show ilocNeg (l.drop (l.length - 90)) 2
        = some ((l.drop (l.length - 90)).get ⟨(l.drop (l.length - 90)).length - 2, hi2⟩)
      from by simp [ilocNeg, List.get?_eq_get hi2]; omega]

/-- C9 witness: the theorem applied to a one-point series (IndexError)
and to a two-point series (renders). -/
theorem plot_full_card_needs_two_points_witness :
    plot_full_card (some [((0 : ℕ), some (1 : ℚ))]) = PlotOutcome.indexError
    ∧ ∃ c p, plot_full_card (some [((0 : ℕ), some (1 : ℚ)), (1, some 2)])
        = PlotOutcome.rendered c p :=
  ⟨plot_full_card_needs_two_points.1 [((0 : ℕ), some (1 : ℚ))] rfl,
    plot_full_card_needs_two_points.2.2.2 [((0 : ℕ), some (1 : ℚ)), (1, some 2)]
      (by decide)⟩

/-! ### NaN-freeness of the fetch branches. -/

/-- C10: every series stored directly by a fetch branch is NaN-free —
the Yahoo branch stores `series.dropna()` and the FRED branch ends in
`.dropna()` — while the derived series are not passed through any NaN
removal: concrete NaN-free inputs leave a NaN inside Net_Liquidity
(union alignment) and inside Gold_Oil (0/0). -/
theorem fetch_branches_dropna_derived_not :
    (∀ s : TSeries, ∀ p ∈ dropna s, p.2.isSome = true)
    ∧ (∀ (s : TSeries) (lim : ℕ), ∀ p ∈ resample_daily s lim, p.2.isSome = true)
    ∧ ((2 : ℕ), (none : Option ℚ)) ∈
        netLiquidity [(1, some 1)] [(2, some 1)] [(1, some 1)]
    ∧ ((1 : ℕ), (none : Option ℚ)) ∈ goldOil [(1, some 0)] [(1, some 0)] := by
  refine ⟨?_, ?_, by decide, by decide⟩
  · intro s p hp
    exact (List.mem_filter.mp hp).2
  · intro s lim p hp
    exact (List.mem_filter.mp hp).2

/-- C10 witness: the NaN-freeness halves applied to concrete stored
series (a dropped-NaN Yahoo series and a gapless resampled FRED series). -/
theorem fetch_branches_dropna_derived_not_witness :
    (((0 : ℕ), some (1 : ℚ)).2).isSome = true
    ∧ (((1 : ℕ), some (4 : ℚ)).2).isSome = true :=
  ⟨fetch_branches_dropna_derived_not.1 [(0, some 1), (1, none)] (0, some 1) (by decide),
    fetch_branches_dropna_derived_not.2.1 [(0, some 1), (1, some 4)] 5 (1, some 4)
      (by decide)⟩

end AppModel
